import Mathlib

/-!
# SimpleScheduler: the job queue and the timer-driven dispatcher

A shallow embedding of `src/scheduler.c`.  The global variables of the
C program become the fields of `State`; every C function becomes a Lean
function on `State`.  Standard output is part of the state (`out`), one `Msg`
per `printf`, so that what the program reports can be stated.

Conventions of the embedding:

* a `char[256]` name is modelled by the C string it holds, a `List Char`
  (one `Char` per byte).  The last byte of every `executableName` array is
  never written and the arrays are zero-initialised globals, so the string
  that `strncpy (dst, src, 255)` leaves in `dst` is the first 255 bytes of `src`;
* priorities, pids, `ncpu` and `tslice` are integers that the program only
  compares; the millisecond arithmetic on times is done in a C `long`, and
  every result of it is reduced to the 64-bit two's-complement range
  (`wrapLong`), which is what the compiled program computes;
* the two arrays are lists of `MAX_PROCESSES` slots; the slots at and after
  the count keep whatever was written there last, as in C;
* the clock (`gettimeofday`) and `fork` are inputs of the tick (`SlotEnv`).
-/

namespace SimpleScheduler

/-- Capacity of `queue` and of `completedQueue` (`#define MAX_PROCESSES 256`). -/
def MAX_PROCESSES : Nat := 256

/-- The C `struct timeval`. -/
structure Timeval where
  tv_sec : Int
  tv_usec : Int
deriving DecidableEq

/-- The C `struct Process` of `scheduler.c`. -/
structure Process where
  executableName : List Char
  priority : Int
  pid : Int
  isRunning : Bool
  startTime : Timeval
  endTime : Timeval
  waitTime : Int
deriving DecidableEq

/-- The record of `shared_memory.h`; `enqueue` receives a pointer to one and
only prints its name. -/
structure SharedMemoryData where
  executableName : List Char
  priority : Int
  pid : Int
  isRunning : Bool
  startTime : Timeval
  endTime : Timeval
  waitTime : Int
deriving DecidableEq

/-- One line (or block of lines) written to standard output. -/
inductive Msg where
  | duplicateEntry (name : List Char)
  | processAdded (name : List Char) (priority : Int)
  | sharedMemory (executable : List Char)
  | queueFull
  | dequeued (name : List Char) (pid : Int)
  | sigintReceived
  | schedulerRunning (name : List Char) (pid : Int)
  | sentSigusr1 (pid : Int)
  | completed (name : List Char) (pid : Int) (completionTime waitTime : Int)
  | reportHeader
  | reportEntry (name : List Char) (pid : Int) (completionTime waitTime : Int)
deriving DecidableEq

/-- The global variables of `scheduler.c`, and standard output. -/
structure State where
  queue : List Process
  completedQueue : List Process
  queueCount : Nat
  completedQueueCount : Nat
  ncpu : Int
  tslice : Int
  executionStarted : Bool
  out : List Msg
deriving DecidableEq

/-- A zero-filled `struct Process`, the content of a global array slot at
program start and of the unnamed fields of a compound literal. -/
def Process.zero : Process :=
  { executableName := [], priority := 0, pid := 0, isRunning := false,
    startTime := ⟨0, 0⟩, endTime := ⟨0, 0⟩, waitTime := 0 }

/-- The globals as `main` leaves them once it has read `ncpu` and `tslice`
from the command line: both arrays zero-filled, both counts 0, not armed. -/
def initialState (ncpu tslice : Int) : State :=
  { queue := List.replicate MAX_PROCESSES Process.zero
    completedQueue := List.replicate MAX_PROCESSES Process.zero
    queueCount := 0
    completedQueueCount := 0
    ncpu := ncpu
    tslice := tslice
    executionStarted := false
    out := [] }

/-- The string left in a zero-terminated destination by `strncpy (dst, src, n)`. -/
def strncpy (src : List Char) (n : Nat) : List Char := src.take n

/-- The jobs that are pending: slots `0 .. queueCount - 1` of `queue`. -/
def pending (s : State) : List Process := s.queue.take s.queueCount

/-- The completion log: slots `0 .. completedQueueCount - 1` of `completedQueue`. -/
def completed (s : State) : List Process := s.completedQueue.take s.completedQueueCount

/-- The C function `enqueue` (scheduler.c, lines 52-72). -/
def enqueue (s : State) (sharedData : SharedMemoryData) (name : List Char) (priority : Int) :
    State :=
  if s.queueCount < MAX_PROCESSES then
    if (List.range s.queueCount).any
        (fun i => decide ((s.queue.getD i Process.zero).executableName = name)) then
      { s with out := s.out ++ [Msg.duplicateEntry name] }
    else
      let slot := s.queue.getD s.queueCount Process.zero
      { s with
        queue := s.queue.set s.queueCount
          { slot with
            executableName := strncpy name 255
            priority := priority
            pid := -1
            isRunning := false
            waitTime := 0 }
        queueCount := s.queueCount + 1
        out := s.out ++ [Msg.processAdded name priority,
                         Msg.sharedMemory sharedData.executableName] }
  else
    { s with out := s.out ++ [Msg.queueFull] }

/-- The first loop of `dequeue` (lines 77-82): the index it selects. -/
def highestPriorityIndex (s : State) : Nat :=
  (List.range' 1 (s.queueCount - 1)).foldl
    (fun highest i =>
      if (s.queue.getD i Process.zero).priority < (s.queue.getD highest Process.zero).priority
      then i else highest)
    0

/-- The second loop of `dequeue` (lines 84-86): `queue[i] = queue[i + 1]` for
`i` from `start` to `count - 2`. -/
def shiftDown (queue : List Process) (start count : Nat) : List Process :=
  (List.range' start (count - 1 - start)).foldl
    (fun q i => q.set i (q.getD (i + 1) Process.zero))
    queue

/-- The C function `dequeue` (lines 75-92): the returned record and the new globals. -/
def dequeue (s : State) : Process × State :=
  if s.queueCount > 0 then
    let highest := highestPriorityIndex s
    let result := s.queue.getD highest Process.zero
    (result,
     { s with
       queue := shiftDown s.queue highest s.queueCount
       queueCount := s.queueCount - 1
       out := s.out ++ [Msg.dequeued result.executableName result.pid] })
  else
    ({ Process.zero with pid := -1 }, s)

/-- The C function `sigintHandler` (lines 95-98), the start trigger. -/
def sigintHandler (s : State) : State :=
  { s with out := s.out ++ [Msg.sigintReceived], executionStarted := true }

/-- What the environment supplies to one slot of a tick: the clock reading of
line 116, the value `fork` returns at line 120, the clock reading of line 136. -/
structure SlotEnv where
  currentTime : Timeval
  forkResult : Int
  endTime : Timeval

/-- How a call of the tick handler ends in the process that entered it. -/
inductive Outcome where
  | ok (s : State)
  | child
  | outOfBounds
deriving DecidableEq

/-- The value a C `long` (64 bits, two's complement) holds for the
mathematical result `x` of an arithmetic operation: `x` itself when it lies
between `-2 ^ 63` and `2 ^ 63 - 1`, and otherwise `x` reduced modulo `2 ^ 64`
into that range. -/
def wrapLong (x : Int) : Int :=
  (x + 9223372036854775808) % 18446744073709551616 - 9223372036854775808

/-- Milliseconds of a `timeval` as the program computes them in `long`
arithmetic: `tv_sec * 1000 + tv_usec / 1000` (C division truncates). -/
def toMs (t : Timeval) : Int :=
  wrapLong (wrapLong (t.tv_sec * 1000) + Int.tdiv t.tv_usec 1000)

/-- Lines 131-143 of `schedulerSignalHandler`: the branch taken when `fork`
did not return 0 (the child's pid, or `-1` when `fork` failed: the code does
not tell them apart).  `kill` and `waitpid` act on other processes and leave
the globals alone; `endTime` is the clock reading taken after `waitpid`.
Storing at index `completedQueueCount` is defined only while that index is
inside the array. -/
def parentBranch (e : SlotEnv) (process : Process) (s : State) : Outcome :=
  let process := { process with endTime := e.endTime }
  let completionTime := wrapLong (toMs process.endTime - toMs process.startTime)
  let completionTime := if completionTime < s.tslice then s.tslice else completionTime
  if s.completedQueueCount < MAX_PROCESSES then
    Outcome.ok
      { s with
        completedQueue := s.completedQueue.set s.completedQueueCount process
        completedQueueCount := s.completedQueueCount + 1
        out := s.out ++ [Msg.schedulerRunning process.executableName process.pid,
                         Msg.sentSigusr1 process.pid,
                         Msg.completed process.executableName process.pid completionTime
                           process.waitTime] }
  else
    Outcome.outOfBounds

/-- The body of the loop of `schedulerSignalHandler` (lines 112-145).  When
`fork` returns 0 the process is the new child: it writes the clock into
`startTime` of its own copy of `process` (line 124), pauses, then replaces
its image or exits, and never comes back to the scheduler's loop. -/
def dispatchSlot (e : SlotEnv) (s : State) : Outcome :=
  if s.queueCount > 0 then
    let r := dequeue s
    let process := r.1
    let s := r.2
    if process.pid = -1 then Outcome.ok s
    else
      let process := { process with
        waitTime := wrapLong (toMs e.currentTime - toMs process.startTime) }
      let process := { process with isRunning := true }
      let process := { process with pid := e.forkResult }
      if process.pid = 0 then Outcome.child
      else parentBranch e process s
  else
    Outcome.ok s

/-- The loop `for (i = 0; i < ncpu; i++)` of lines 111-146, with `remaining`
iterations to go from slot `i`. -/
def schedulerLoop (env : Nat → SlotEnv) : Nat → Nat → State → Outcome
  | 0, _, s => Outcome.ok s
  | remaining + 1, i, s =>
    match dispatchSlot (env i) s with
    | Outcome.ok s' => schedulerLoop env remaining (i + 1) s'
    | Outcome.child => Outcome.child
    | Outcome.outOfBounds => Outcome.outOfBounds

/-- The C function `schedulerSignalHandler` (lines 107-147), one timer tick. -/
def schedulerSignalHandler (env : Nat → SlotEnv) (s : State) : Outcome :=
  if !s.executionStarted then Outcome.ok s
  else schedulerLoop env s.ncpu.toNat 0 s

/-- The C function `printProcessCompletionDetails` (lines 150-163). -/
def printProcessCompletionDetails (s : State) : State :=
  { s with
    out := s.out ++ Msg.reportHeader ::
      (List.range s.completedQueueCount).map (fun i =>
        let process := s.completedQueue.getD i Process.zero
        let completionTime := wrapLong (toMs process.endTime - toMs process.startTime)
        let completionTime := if completionTime < s.tslice then s.tslice else completionTime
        Msg.reportEntry process.executableName process.pid completionTime process.waitTime) }

/-- One event in the life of the scheduler process: a call of `enqueue`, a
call of `dequeue`, the start trigger, or a timer tick. -/
inductive Op where
  | enqueue (sharedData : SharedMemoryData) (name : List Char) (priority : Int)
  | dequeue
  | sigint
  | tick (env : Nat → SlotEnv)

/-- The effect of one event on the globals. -/
def Op.apply : Op → State → Outcome
  | Op.enqueue sharedData name priority, s =>
    Outcome.ok (SimpleScheduler.enqueue s sharedData name priority)
  | Op.dequeue, s => Outcome.ok (SimpleScheduler.dequeue s).2
  | Op.sigint, s => Outcome.ok (sigintHandler s)
  | Op.tick env, s => schedulerSignalHandler env s

/-- The effect of a sequence of events, first to last. -/
def run : State → List Op → Outcome
  | s, [] => Outcome.ok s
  | s, op :: ops =>
    match op.apply s with
    | Outcome.ok s' => run s' ops
    | Outcome.child => Outcome.child
    | Outcome.outOfBounds => Outcome.outOfBounds

/-- The states the scheduler process can be in: those some sequence of events
produces from the initial state. -/
def Reachable (s : State) : Prop :=
  ∃ (ncpu tslice : Int) (ops : List Op), run (initialState ncpu tslice) ops = Outcome.ok s

/-- Events allowed before the start trigger in the gate property: `enqueue`
calls and timer ticks. -/
def Op.isEnqueueOrTick : Op → Bool
  | Op.enqueue _ _ _ => true
  | Op.tick _ => true
  | _ => false

/-- The length of the name an `enqueue` event submits (0 for other events). -/
def Op.nameLength : Op → Nat
  | Op.enqueue _ name _ => name.length
  | _ => 0

/-- The records returned by `n` successive calls of `dequeue`, in order, and
the globals after them. -/
def dequeueN : Nat → State → List Process × State
  | 0, s => ([], s)
  | n + 1, s =>
    let r := dequeue s
    let rest := dequeueN n r.2
    (r.1 :: rest.1, rest.2)

/-- A call on the job queue. -/
inductive QueueCall where
  | enqueue (sharedData : SharedMemoryData) (name : List Char) (priority : Int)
  | dequeue

/-- Bookkeeping of arrivals next to the program state: the second component
lists, for the pending jobs in queue order, the position in the call sequence
of the `enqueue` call that admitted each.  Call number `k` is applied: an
`enqueue` that lengthens the queue adds stamp `k` at the end, a `dequeue` on a
non-empty queue drops the stamp of the slot it vacates. -/
def stampedStep (k : Nat) (c : QueueCall) (x : State × List Nat) : State × List Nat :=
  match c with
  | QueueCall.enqueue sharedData name priority =>
    let s' := enqueue x.1 sharedData name priority
    (s', if s'.queueCount = x.1.queueCount + 1 then x.2 ++ [k] else x.2)
  | QueueCall.dequeue =>
    ((dequeue x.1).2,
     if 0 < x.1.queueCount then x.2.eraseIdx (highestPriorityIndex x.1) else x.2)

/-- A sequence of queue calls, numbered from `k`, with the arrival bookkeeping. -/
def stampedRun : Nat → State × List Nat → List QueueCall → State × List Nat
  | _, x, [] => x
  | k, x, c :: cs => stampedRun (k + 1) (stampedStep k c x) cs

/-- The state and arrival stamps after a sequence of queue calls made on the
empty queue. -/
def afterCalls (ncpu tslice : Int) (calls : List QueueCall) : State × List Nat :=
  stampedRun 0 (initialState ncpu tslice, []) calls

/-- The names of the pending jobs, in queue order. -/
def pendingNames (s : State) : List (List Char) := (pending s).map (fun p => p.executableName)

/-- A mailbox content used in examples. -/
def sampleShared : SharedMemoryData :=
  { executableName := [], priority := 0, pid := 0, isRunning := false,
    startTime := ⟨0, 0⟩, endTime := ⟨0, 0⟩, waitTime := 0 }

/-- An environment used in examples: every slot sees the clock at 5000 ms, a
successful `fork` returning pid 77, and the child gone at 5010 ms. -/
def sampleEnv : Nat → SlotEnv :=
  fun _ => { currentTime := ⟨5, 0⟩, forkResult := 77, endTime := ⟨5, 10000⟩ }

/-- The scenario of the specification: `ncpu = 2`, `tslice = 100`, jobs `A`
(priority 5), `B` (priority 1), `C` (priority 5) submitted in that order, then
the start trigger. -/
def scenarioABC : List Op :=
  [Op.enqueue sampleShared ['A'] 5, Op.enqueue sampleShared ['B'] 1,
   Op.enqueue sampleShared ['C'] 5, Op.sigint]

/-- The state the scenario `scenarioABC` leads to. -/
def stateABC : State :=
  sigintHandler
    (enqueue (enqueue (enqueue (initialState 2 100) sampleShared ['A'] 5) sampleShared ['B'] 1)
      sampleShared ['C'] 5)

/-- A queue filled to capacity: 256 jobs with the names `""`, `"a"`, `"aa"`, ... -/
def fullState : State :=
  (List.range MAX_PROCESSES).foldl
    (fun s i => enqueue s sampleShared (List.replicate i 'a') 0) (initialState 1 100)

/-- The events that produce `fullState`. -/
def fullOps : List Op :=
  (List.range MAX_PROCESSES).map (fun i => Op.enqueue sampleShared (List.replicate i 'a') 0)

/-- A name of 256 characters, one more than a name slot can hold. -/
def longName : List Char := List.replicate 256 'a'

/-- What every reachable state satisfies: the queue array has its 256 slots,
the count is within them, every pending record still has the pid `-1` that
`enqueue` wrote, and the completion log is empty. -/
structure Inv (s : State) : Prop where
  length : s.queue.length = MAX_PROCESSES
  count : s.queueCount ≤ MAX_PROCESSES
  pid : ∀ p ∈ pending s, p.pid = -1
  log : s.completedQueueCount = 0

/-- Stamp `t` names the call that admitted the pending record `job`: call
number `t` of `calls` is an `enqueue` of the job's name and priority. -/
def admittedBy (calls : List QueueCall) (job : Process) (t : Nat) : Prop :=
  ∃ sharedData name priority,
    calls[t]? = some (QueueCall.enqueue sharedData name priority) ∧
    job.executableName = strncpy name 255 ∧ job.priority = priority

/-- The bookkeeping of `stampedStep` is sound after the first `k` calls of
`calls`: the state is well formed, every pending job carries the stamp of the
call that admitted it, and stamps grow along the queue and are below `k`. -/
structure StampInv (calls : List QueueCall) (k : Nat) (x : State × List Nat) : Prop where
  inv : Inv x.1
  admitted : List.Forall₂ (admittedBy calls) (pending x.1) x.2
  increasing : x.2.Pairwise (fun a b => a < b)
  bound : ∀ t ∈ x.2, t < k

/-- A call sequence used in examples: `A` (priority 5), `B` (1), `C` (1) are
submitted, one job is dequeued, then `D` (1) is submitted. -/
def sampleCalls : List QueueCall :=
  [QueueCall.enqueue sampleShared ['A'] 5, QueueCall.enqueue sampleShared ['B'] 1,
   QueueCall.enqueue sampleShared ['C'] 1, QueueCall.dequeue,
   QueueCall.enqueue sampleShared ['D'] 1]

/-- The state after `longName` has been submitted twice. -/
def longTwice : State :=
  enqueue (enqueue (initialState 1 100) sampleShared longName 1) sampleShared longName 1

/-- The difference `endTime - startTime` of a record in milliseconds as the
program computes it in `long` arithmetic (lines 137-138 and 154-155). -/
def elapsedMs (record : Process) : Int :=
  wrapLong (toMs record.endTime - toMs record.startTime)

/-- A time that millisecond arithmetic in a `long` can hold: seconds from 0 to
9223372036854774 (then `tv_sec * 1000 + 999` is below `2 ^ 63`), microseconds
from 0 to 999999 as `gettimeofday` returns them. -/
def ClockReading (t : Timeval) : Prop :=
  0 ≤ t.tv_sec ∧ t.tv_sec ≤ 9223372036854774 ∧ 0 ≤ t.tv_usec ∧ t.tv_usec ≤ 999999

/-- A job record used in examples: started at 1995 ms (1 s and 995000 us),
pid 77. -/
def sampleRecord : Process :=
  { executableName := ['J'], priority := 1, pid := 77, isRunning := true,
    startTime := ⟨1, 995000⟩, endTime := ⟨0, 0⟩, waitTime := 250 }

/-- An environment used in examples in which the child is gone at 2005 ms
(2 s and 5000 us), 10 ms after the start time of `sampleRecord`. -/
def quickEnv : SlotEnv :=
  { currentTime := ⟨1, 995000⟩, forkResult := 77, endTime := ⟨2, 5000⟩ }

/-- An environment used in examples in which the child is gone at 3005 ms,
1010 ms after the start time of `sampleRecord`. -/
def slowEnv : SlotEnv :=
  { currentTime := ⟨1, 995000⟩, forkResult := 77, endTime := ⟨3, 5000⟩ }

/-- A time whose seconds, multiplied by 1000, do not fit a `long`. -/
def farFuture : Timeval := ⟨9223372036854776, 0⟩

/-- Events used in examples: three submissions and two ticks, and no start
trigger. -/
def unarmedOps : List Op :=
  [Op.enqueue sampleShared ['A'] 5, Op.tick sampleEnv, Op.enqueue sampleShared ['B'] 1,
   Op.enqueue sampleShared ['C'] 5, Op.tick sampleEnv]

/-- The line of the final report for a record, with the charged completion
time written as a maximum. -/
def reportLine (tslice : Int) (record : Process) : Msg :=
  Msg.reportEntry record.executableName record.pid (max tslice (elapsedMs record))
    record.waitTime

/-- The state in which job `A` has been submitted and the scheduler armed,
with `ncpu = 1` and `tslice = 50`. -/
def armedA : State := sigintHandler (enqueue (initialState 1 50) sampleShared ['A'] 1)

/-- One line written to the standard output of the shell (`src/shell.c`). -/
inductive ShellMsg where
  | commandSubmitted (cmd : List Char) (priority : Int)
deriving DecidableEq

/-- The part of the shell's world that `enqueue_for_scheduler` touches: the
record at the start of the shared memory object `SHARED_MEM_NAME` (the
submission channel) and the shell's standard output. -/
structure Submitter where
  shared : SharedMemoryData
  out : List ShellMsg
deriving DecidableEq

/-- The C function `enqueue_for_scheduler` (shell.c, lines 176-198).  `opened`
and `mapped` tell whether `shm_open` and `mmap` succeed; when one fails the
shell exits with `EXIT_FAILURE` before writing anything (`none`).  The object
is sized to one record, which is mapped and written in place: the name
(at most 255 bytes, then the terminator) and the priority. -/
def enqueue_for_scheduler (opened mapped : Bool) (w : Submitter) (cmd : List Char)
    (priority : Int) : Option Submitter :=
  if !opened then none
  else if !mapped then none
  else
    some
      { shared := { w.shared with
          executableName := strncpy cmd 255
          priority := priority }
        out := w.out ++ [ShellMsg.commandSubmitted cmd priority] }

/-- The requests the channel holds, oldest first, as a reader of the shared
record finds them: the record's name and priority, and nothing when the name
is empty (the test `strlen (name) > 0` of `execute_shared_memory_command`). -/
def heldRequests (shared : SharedMemoryData) : List (List Char × Int) :=
  if shared.executableName = [] then [] else [(shared.executableName, shared.priority)]

/-- The shell before any submission: the shared object freshly created
(zero-filled) and nothing printed. -/
def freshSubmitter : Submitter := { shared := sampleShared, out := [] }

/-- The state `armedA` with the pid of the pending record changed from the
`-1` that `enqueue` stores to 0, so that the tick does not take the record
for the empty-queue sentinel.  No run of the program produces this state; it
shows what lines 116-143 do with a record that `enqueue` made. -/
def launchableA : State :=
  { armedA with
    queue := armedA.queue.set 0 { armedA.queue.getD 0 Process.zero with pid := 0 } }

/-! ## Lemmas on the two loops of `dequeue`, on `enqueue`, and on runs -/

set_option maxRecDepth 100000

theorem scan_spec (p : Nat → Int) (n : Nat) :
    (List.range' 1 n).foldl (fun highest i => if p i < p highest then i else highest) 0 ≤ n ∧
    (∀ j, j ≤ n →
      p ((List.range' 1 n).foldl (fun highest i => if p i < p highest then i else highest) 0)
        ≤ p j) ∧
    (∀ j, j < (List.range' 1 n).foldl (fun highest i => if p i < p highest then i else highest) 0 →
      p ((List.range' 1 n).foldl (fun highest i => if p i < p highest then i else highest) 0)
        < p j) := by
  induction n with
  | zero => simp
  | succ n ih =>
    rw [List.range'_1_concat, List.foldl_append]
    simp only [List.foldl_cons, List.foldl_nil]
    generalize (List.range' 1 n).foldl
      (fun highest i => if p i < p highest then i else highest) 0 = h at ih ⊢
    obtain ⟨h1, h2, h3⟩ := ih
    by_cases hlt : p (1 + n) < p h
    · rw [if_pos hlt]
      refine ⟨by omega, ?_, ?_⟩
      · intro j hj
        by_cases hjn : j ≤ n
        · have := h2 j hjn
          omega
        · have : j = 1 + n := by omega
          rw [this]
      · intro j hj
        have := h2 j (by omega)
        omega
    · rw [if_neg hlt]
      refine ⟨by omega, ?_, h3⟩
      intro j hj
      by_cases hjn : j ≤ n
      · exact h2 j hjn
      · have : j = 1 + n := by omega
        rw [this]
        omega

theorem shift_length (q : List Process) (a n : Nat) :
    ((List.range' a n).foldl (fun q i => q.set i (q.getD (i + 1) Process.zero)) q).length
      = q.length := by
  induction n with
  | zero => simp
  | succ n ih =>
    rw [List.range'_1_concat, List.foldl_append]
    simp only [List.foldl_cons, List.foldl_nil, List.length_set]
    exact ih

theorem shift_getElem? (q : List Process) (a n : Nat) (hb : a + n < q.length) (j : Nat) :
    ((List.range' a n).foldl (fun q i => q.set i (q.getD (i + 1) Process.zero)) q)[j]?
      = if a ≤ j ∧ j < a + n then q[j + 1]? else q[j]? := by
  induction n generalizing j with
  | zero =>
    have : ¬ (a ≤ j ∧ j < a) := by omega
    simp [this]
  | succ n ih =>
    rw [List.range'_1_concat, List.foldl_append]
    simp only [List.foldl_cons, List.foldl_nil]
    have hlen := shift_length q a n
    have ih1 := fun j => ih (by omega) j
    generalize (List.range' a n).foldl
      (fun q i => q.set i (q.getD (i + 1) Process.zero)) q = q' at ih1 hlen ⊢
    have hnext : q'[a + n + 1]? = q[a + n + 1]? := by
      rw [ih1 (a + n + 1), if_neg (by omega)]
    have hsome : q[a + n + 1]? = some (q'.getD (a + n + 1) Process.zero) := by
      rw [List.getD_eq_getElem?_getD, hnext, List.getElem?_eq_getElem (by omega)]
      rfl
    rw [List.getElem?_set]
    by_cases hj : a + n = j
    · subst hj
      rw [if_pos rfl, if_pos (by omega), if_pos (by omega), hsome]
    · rw [if_neg hj, ih1 j]
      by_cases hr : a ≤ j ∧ j < a + n
      · rw [if_pos hr, if_pos (by omega)]
      · rw [if_neg hr, if_neg (by omega)]

theorem highestPriorityIndex_lt (s : State) (hpos : 0 < s.queueCount) :
    highestPriorityIndex s < s.queueCount := by
  have h := (scan_spec (fun i => (s.queue.getD i Process.zero).priority) (s.queueCount - 1)).1
  unfold highestPriorityIndex
  omega

theorem highestPriorityIndex_min (s : State) (j : Nat) (hj : j < s.queueCount) :
    (s.queue.getD (highestPriorityIndex s) Process.zero).priority
      ≤ (s.queue.getD j Process.zero).priority :=
  (scan_spec (fun i => (s.queue.getD i Process.zero).priority) (s.queueCount - 1)).2.1 j
    (by omega)

theorem highestPriorityIndex_first (s : State) (j : Nat) (hj : j < highestPriorityIndex s) :
    (s.queue.getD (highestPriorityIndex s) Process.zero).priority
      < (s.queue.getD j Process.zero).priority :=
  (scan_spec (fun i => (s.queue.getD i Process.zero).priority) (s.queueCount - 1)).2.2 j hj

theorem pending_length (s : State) (hlen : s.queueCount ≤ s.queue.length) :
    (pending s).length = s.queueCount := by
  simp [pending, hlen]

theorem pending_getElem? (s : State) (j : Nat) :
    (pending s)[j]? = if j < s.queueCount then s.queue[j]? else none := by
  simp [pending, List.getElem?_take]

theorem pending_getD (s : State) (j : Nat) (hj : j < s.queueCount) :
    (pending s).getD j Process.zero = s.queue.getD j Process.zero := by
  simp [List.getD_eq_getElem?_getD, pending_getElem?, hj]

theorem dequeue_fst (s : State) (hpos : 0 < s.queueCount) :
    (dequeue s).1 = s.queue.getD (highestPriorityIndex s) Process.zero := by
  simp [dequeue, hpos]

theorem dequeue_queueCount (s : State) : (dequeue s).2.queueCount = s.queueCount - 1 := by
  unfold dequeue
  split
  · rfl
  · simp only; omega

theorem dequeue_queue_length (s : State) : (dequeue s).2.queue.length = s.queue.length := by
  unfold dequeue
  split
  · exact shift_length _ _ _
  · rfl

theorem dequeue_pending (s : State) (hlen : s.queueCount ≤ s.queue.length)
    (hpos : 0 < s.queueCount) :
    pending (dequeue s).2 = (pending s).eraseIdx (highestPriorityIndex s) := by
  have hhi := highestPriorityIndex_lt s hpos
  apply List.ext_getElem?
  intro j
  rw [pending_getElem?, dequeue_queueCount, List.getElem?_eraseIdx, pending_getElem?,
    pending_getElem?]
  have hq : (dequeue s).2.queue = shiftDown s.queue (highestPriorityIndex s) s.queueCount := by
    simp [dequeue, hpos]
  rw [hq]
  unfold shiftDown
  rw [shift_getElem? _ _ _ (by omega)]
  split_ifs <;> first | rfl | omega

theorem mem_pendingNames_iff (s : State) (name : List Char) :
    name ∈ pendingNames s ↔
      ∃ i, i < s.queueCount ∧ ∃ p, s.queue[i]? = some p ∧ p.executableName = name := by
  unfold pendingNames
  rw [List.mem_map]
  constructor
  · rintro ⟨p, hp, hname⟩
    obtain ⟨i, hi⟩ := List.getElem?_of_mem hp
    rw [pending_getElem?] at hi
    by_cases hlt : i < s.queueCount
    · rw [if_pos hlt] at hi
      exact ⟨i, hlt, p, hi, hname⟩
    · rw [if_neg hlt] at hi
      cases hi
  · rintro ⟨i, hlt, p, hp, hname⟩
    refine ⟨p, ?_, hname⟩
    apply List.getElem?_mem (n := i)
    rw [pending_getElem?, if_pos hlt, hp]

theorem scan_true_of_mem (s : State) (name : List Char) (h : name ∈ pendingNames s) :
    (List.range s.queueCount).any
      (fun i => decide ((s.queue.getD i Process.zero).executableName = name)) = true := by
  obtain ⟨i, hlt, p, hp, hname⟩ := (mem_pendingNames_iff s name).1 h
  rw [List.any_eq_true]
  refine ⟨i, List.mem_range.2 hlt, ?_⟩
  simp [List.getD_eq_getElem?_getD, hp, hname]

theorem scan_false_of_not_mem (s : State) (name : List Char)
    (hlen : s.queueCount ≤ s.queue.length) (h : name ∉ pendingNames s) :
    (List.range s.queueCount).any
      (fun i => decide ((s.queue.getD i Process.zero).executableName = name)) = false := by
  rw [Bool.eq_false_iff]
  intro hany
  rw [List.any_eq_true] at hany
  obtain ⟨i, hi, hdec⟩ := hany
  rw [List.mem_range] at hi
  apply h
  rw [mem_pendingNames_iff]
  have hil : i < s.queue.length := by omega
  refine ⟨i, hi, s.queue[i], List.getElem?_eq_getElem hil, ?_⟩
  simpa [List.getD_eq_getElem?_getD, List.getElem?_eq_getElem hil] using hdec

theorem enqueue_of_full (s : State) (sd : SharedMemoryData) (name : List Char) (p : Int)
    (h : ¬ s.queueCount < MAX_PROCESSES) :
    enqueue s sd name p = { s with out := s.out ++ [Msg.queueFull] } := by
  unfold enqueue
  rw [if_neg h]

theorem enqueue_of_mem (s : State) (sd : SharedMemoryData) (name : List Char) (p : Int)
    (hroom : s.queueCount < MAX_PROCESSES) (h : name ∈ pendingNames s) :
    enqueue s sd name p = { s with out := s.out ++ [Msg.duplicateEntry name] } := by
  unfold enqueue
  rw [if_pos hroom, if_pos (scan_true_of_mem s name h)]

theorem enqueue_of_new (s : State) (sd : SharedMemoryData) (name : List Char) (p : Int)
    (hroom : s.queueCount < MAX_PROCESSES) (hlen : s.queueCount ≤ s.queue.length)
    (h : name ∉ pendingNames s) :
    enqueue s sd name p =
      { s with
        queue := s.queue.set s.queueCount
          { s.queue.getD s.queueCount Process.zero with
            executableName := strncpy name 255
            priority := p
            pid := -1
            isRunning := false
            waitTime := 0 }
        queueCount := s.queueCount + 1
        out := s.out ++ [Msg.processAdded name p, Msg.sharedMemory sd.executableName] } := by
  unfold enqueue
  rw [if_pos hroom, scan_false_of_not_mem s name hlen h]
  simp

theorem pending_set_append (s : State) (x : Process) (hlen : s.queueCount < s.queue.length) :
    (s.queue.set s.queueCount x).take (s.queueCount + 1) = pending s ++ [x] := by
  unfold pending
  rw [List.set_eq_take_append_cons_drop, if_pos hlen, List.take_append_eq_append_take]
  have h1 : (List.take s.queueCount s.queue).length = s.queueCount := by
    rw [List.length_take]; omega
  rw [h1, List.take_of_length_le (by omega)]
  simp

theorem inv_initialState (ncpu tslice : Int) : Inv (initialState ncpu tslice) where
  length := by simp [initialState]
  count := by simp [initialState]
  pid := by simp [initialState, pending]
  log := rfl

theorem inv_enqueue (s : State) (sd : SharedMemoryData) (name : List Char) (p : Int)
    (h : Inv s) : Inv (enqueue s sd name p) := by
  by_cases hroom : s.queueCount < MAX_PROCESSES
  · by_cases hmem : name ∈ pendingNames s
    · rw [enqueue_of_mem s sd name p hroom hmem]
      exact ⟨h.length, h.count, h.pid, h.log⟩
    · have hlen : s.queueCount < s.queue.length := by rw [h.length]; exact hroom
      rw [enqueue_of_new s sd name p hroom (by omega) hmem]
      refine ⟨by simp [h.length], hroom, ?_, h.log⟩
      intro x hx
      simp only [pending] at hx
      rw [pending_set_append s _ hlen, List.mem_append] at hx
      rcases hx with hx | hx
      · exact h.pid x hx
      · rw [List.mem_singleton] at hx
        rw [hx]
  · rw [enqueue_of_full s sd name p hroom]
    exact ⟨h.length, h.count, h.pid, h.log⟩

theorem dequeue_completedQueueCount (s : State) :
    (dequeue s).2.completedQueueCount = s.completedQueueCount := by
  unfold dequeue
  split <;> rfl

theorem inv_dequeue (s : State) (h : Inv s) : Inv (dequeue s).2 := by
  by_cases hpos : 0 < s.queueCount
  · refine ⟨by rw [dequeue_queue_length, h.length], ?_, ?_, ?_⟩
    · rw [dequeue_queueCount]
      have := h.count
      omega
    · intro x hx
      rw [dequeue_pending s (by rw [h.length]; exact h.count) hpos] at hx
      exact h.pid x ((List.eraseIdx_sublist _ _).subset hx)
    · rw [dequeue_completedQueueCount, h.log]
  · have : (dequeue s).2 = s := by
      unfold dequeue
      rw [if_neg (by omega)]
    rw [this]
    exact h

theorem inv_sigintHandler (s : State) (h : Inv s) : Inv (sigintHandler s) :=
  ⟨h.length, h.count, h.pid, h.log⟩

theorem dequeue_fst_pid (s : State) (h : Inv s) : (dequeue s).1.pid = -1 := by
  by_cases hpos : 0 < s.queueCount
  · have hhi := highestPriorityIndex_lt s hpos
    rw [dequeue_fst s hpos, ← pending_getD s _ hhi]
    apply h.pid
    have hl := pending_length s (by rw [h.length]; exact h.count)
    rw [List.getD_eq_getElem?_getD, List.getElem?_eq_getElem (by omega)]
    exact List.getElem_mem _
  · unfold dequeue
    rw [if_neg (by omega)]

theorem dispatchSlot_of_inv (e : SlotEnv) (s : State) (h : Inv s) :
    dispatchSlot e s = Outcome.ok (if 0 < s.queueCount then (dequeue s).2 else s) := by
  unfold dispatchSlot
  by_cases hpos : 0 < s.queueCount
  · simp only [gt_iff_lt, hpos, if_true, dequeue_fst_pid s h]
  · simp only [gt_iff_lt, hpos, if_false]

theorem schedulerLoop_of_inv (env : Nat → SlotEnv) (n i : Nat) (s : State) (h : Inv s) :
    schedulerLoop env n i s = Outcome.ok (dequeueN (min n s.queueCount) s).2 := by
  induction n generalizing i s with
  | zero => simp [schedulerLoop, dequeueN]
  | succ n ih =>
    simp only [schedulerLoop, dispatchSlot_of_inv _ s h]
    by_cases hpos : 0 < s.queueCount
    · rw [if_pos hpos]
      rw [ih (i + 1) _ (inv_dequeue s h), dequeue_queueCount]
      have hm : min (n + 1) s.queueCount = min n (s.queueCount - 1) + 1 := by omega
      rw [hm]
      rfl
    · rw [if_neg hpos]
      rw [ih (i + 1) s h]
      have h0 : s.queueCount = 0 := by omega
      rw [h0]
      simp [dequeueN]

theorem schedulerSignalHandler_of_inv (env : Nat → SlotEnv) (s : State) (h : Inv s) :
    schedulerSignalHandler env s =
      Outcome.ok (if s.executionStarted then (dequeueN (min s.ncpu.toNat s.queueCount) s).2
                  else s) := by
  unfold schedulerSignalHandler
  cases hs : s.executionStarted
  · simp
  · simp [schedulerLoop_of_inv env _ 0 s h]

theorem inv_dequeueN (n : Nat) (s : State) (h : Inv s) : Inv (dequeueN n s).2 := by
  induction n generalizing s with
  | zero => exact h
  | succ n ih => exact ih _ (inv_dequeue s h)

theorem run_of_inv (ops : List Op) (s : State) (h : Inv s) :
    ∃ s', run s ops = Outcome.ok s' ∧ Inv s' := by
  induction ops generalizing s with
  | nil => exact ⟨s, rfl, h⟩
  | cons op ops ih =>
    cases op with
    | enqueue sd name p =>
      simpa [run, Op.apply] using ih _ (inv_enqueue s sd name p h)
    | dequeue =>
      simpa [run, Op.apply] using ih _ (inv_dequeue s h)
    | sigint =>
      simpa [run, Op.apply] using ih _ (inv_sigintHandler s h)
    | tick env =>
      simp only [run, Op.apply, schedulerSignalHandler_of_inv env s h]
      apply ih
      split
      · exact inv_dequeueN _ s h
      · exact h

theorem inv_of_reachable (s : State) (h : Reachable s) : Inv s := by
  obtain ⟨ncpu, tslice, ops, hrun⟩ := h
  obtain ⟨s', hs', hinv⟩ := run_of_inv ops _ (inv_initialState ncpu tslice)
  rw [hs'] at hrun
  cases hrun
  exact hinv

theorem run_append_ok (a b : List Op) (s s' : State) (h : run s a = Outcome.ok s') :
    run s (a ++ b) = run s' b := by
  induction a generalizing s with
  | nil =>
    simp only [run] at h
    cases h
    rfl
  | cons op a ih =>
    simp only [run, List.cons_append] at h ⊢
    cases hop : op.apply s with
    | ok t =>
      rw [hop] at h
      exact ih t h
    | child => rw [hop] at h; cases h
    | outOfBounds => rw [hop] at h; cases h

theorem reachable_step (s s' : State) (op : Op) (h : Reachable s)
    (hop : op.apply s = Outcome.ok s') : Reachable s' := by
  obtain ⟨ncpu, tslice, ops, hrun⟩ := h
  refine ⟨ncpu, tslice, ops ++ [op], ?_⟩
  rw [run_append_ok ops [op] _ s hrun]
  simp only [run, hop]

theorem reachable_enqueue (s : State) (sd : SharedMemoryData) (name : List Char) (p : Int)
    (h : Reachable s) : Reachable (enqueue s sd name p) :=
  reachable_step s _ (Op.enqueue sd name p) h rfl

theorem forall₂_eraseIdx {α β : Type} {R : α → β → Prop} {l₁ : List α} {l₂ : List β}
    (h : List.Forall₂ R l₁ l₂) (i : Nat) : List.Forall₂ R (l₁.eraseIdx i) (l₂.eraseIdx i) := by
  induction h generalizing i with
  | nil => exact List.Forall₂.nil
  | cons hab _ ih =>
    cases i with
    | zero => simpa
    | succ i => exact List.Forall₂.cons hab (ih i)

theorem stampInv_step (calls : List QueueCall) (k : Nat) (c : QueueCall) (x : State × List Nat)
    (hc : calls[k]? = some c) (h : StampInv calls k x) :
    StampInv calls (k + 1) (stampedStep k c x) := by
  obtain ⟨s, a⟩ := x
  obtain ⟨hinv, hadm, hinc, hbd⟩ := h
  simp only at hinv hadm hinc hbd
  have hbd' : ∀ t ∈ a, t < k + 1 := fun t ht => Nat.lt_succ_of_lt (hbd t ht)
  cases c with
  | enqueue sd name p =>
    simp only [stampedStep]
    by_cases hroom : s.queueCount < MAX_PROCESSES
    · by_cases hmem : name ∈ pendingNames s
      · rw [enqueue_of_mem s sd name p hroom hmem]
        simp only [Nat.succ_ne_self, self_eq_add_right, one_ne_zero, if_false]
        exact ⟨⟨hinv.length, hinv.count, hinv.pid, hinv.log⟩, hadm, hinc, hbd'⟩
      · have hlen : s.queueCount < s.queue.length := by rw [hinv.length]; exact hroom
        have hI := inv_enqueue s sd name p hinv
        rw [enqueue_of_new s sd name p hroom (by omega) hmem] at hI ⊢
        simp only [if_true]
        refine ⟨hI, ?_, ?_, ?_⟩
        · simp only [pending]
          rw [pending_set_append s _ hlen]
          exact List.rel_append hadm
            (List.Forall₂.cons ⟨sd, name, p, hc, rfl, rfl⟩ List.Forall₂.nil)
        · simp only
          rw [List.pairwise_append]
          refine ⟨hinc, List.pairwise_singleton _ _, ?_⟩
          intro t ht b hb
          rw [List.mem_singleton] at hb
          rw [hb]
          exact hbd t ht
        · intro t ht
          simp only [List.mem_append, List.mem_singleton] at ht
          rcases ht with ht | ht
          · exact hbd' t ht
          · omega
    · rw [enqueue_of_full s sd name p hroom]
      simp only [Nat.succ_ne_self, self_eq_add_right, one_ne_zero, if_false]
      exact ⟨⟨hinv.length, hinv.count, hinv.pid, hinv.log⟩, hadm, hinc, hbd'⟩
  | dequeue =>
    simp only [stampedStep]
    by_cases hpos : 0 < s.queueCount
    · rw [if_pos hpos]
      refine ⟨inv_dequeue s hinv, ?_, ?_, ?_⟩
      · simp only
        rw [dequeue_pending s (by rw [hinv.length]; exact hinv.count) hpos]
        exact forall₂_eraseIdx hadm _
      · exact hinc.sublist (List.eraseIdx_sublist _ _)
      · intro t ht
        exact hbd' t ((List.eraseIdx_sublist _ _).subset ht)
    · rw [if_neg hpos]
      have hd : (dequeue s).2 = s := by
        unfold dequeue
        rw [if_neg (by omega)]
      rw [hd]
      exact ⟨hinv, hadm, hinc, hbd'⟩

theorem stampInv_run (calls cs : List QueueCall) (k : Nat) (x : State × List Nat)
    (hcs : calls.drop k = cs) (h : StampInv calls k x) :
    StampInv calls (k + cs.length) (stampedRun k x cs) := by
  induction cs generalizing k x with
  | nil => simpa [stampedRun] using h
  | cons c cs ih =>
    have hc : calls[k]? = some c := by
      have := List.getElem?_drop (L := calls) (i := k) (j := 0)
      rw [hcs] at this
      simpa using this.symm
    have hrest : calls.drop (k + 1) = cs := by
      rw [← List.drop_drop, hcs]
      rfl
    have := ih (k + 1) _ hrest (stampInv_step calls k c x hc h)
    simp only [stampedRun, List.length_cons]
    rw [show k + (cs.length + 1) = k + 1 + cs.length by omega]
    exact this

theorem stampInv_afterCalls (ncpu tslice : Int) (calls : List QueueCall) :
    StampInv calls calls.length (afterCalls ncpu tslice calls) := by
  have h0 : StampInv calls 0 (initialState ncpu tslice, []) :=
    ⟨inv_initialState ncpu tslice, by simp [pending, initialState], List.Pairwise.nil,
      by simp⟩
  simpa [afterCalls] using stampInv_run calls calls 0 _ rfl h0

theorem run_enqueues (l : List Nat) (s : State) :
    run s (l.map (fun i => Op.enqueue sampleShared (List.replicate i 'a') 0))
      = Outcome.ok (l.foldl (fun s i => enqueue s sampleShared (List.replicate i 'a') 0) s) := by
  induction l generalizing s with
  | nil => rfl
  | cons i l ih => simpa [run, Op.apply] using ih _

theorem fill_spec (n : Nat) (hn : n ≤ MAX_PROCESSES) :
    Inv ((List.range n).foldl
      (fun s i => enqueue s sampleShared (List.replicate i 'a') 0) (initialState 1 100)) ∧
    ((List.range n).foldl
      (fun s i => enqueue s sampleShared (List.replicate i 'a') 0)
      (initialState 1 100)).queueCount = n ∧
    ∀ x ∈ pendingNames ((List.range n).foldl
      (fun s i => enqueue s sampleShared (List.replicate i 'a') 0) (initialState 1 100)),
      x.length < n := by
  induction n with
  | zero =>
    refine ⟨inv_initialState 1 100, rfl, ?_⟩
    simp [pendingNames, pending, initialState]
  | succ n ih =>
    obtain ⟨hinv, hcount, hnames⟩ := ih (by omega)
    rw [List.range_succ, List.foldl_append]
    simp only [List.foldl_cons, List.foldl_nil]
    generalize (List.range n).foldl
      (fun s i => enqueue s sampleShared (List.replicate i 'a') 0) (initialState 1 100) = s
      at hinv hcount hnames
    have hroom : s.queueCount < MAX_PROCESSES := by omega
    have hlen : s.queueCount < s.queue.length := by rw [hinv.length]; exact hroom
    have hnew : List.replicate n 'a' ∉ pendingNames s := by
      intro hmem
      have := hnames _ hmem
      simp at this
    refine ⟨inv_enqueue s _ _ _ hinv, ?_, ?_⟩
    · rw [enqueue_of_new s _ _ _ hroom (by omega) hnew]
      simp only
      omega
    · rw [enqueue_of_new s _ _ _ hroom (by omega) hnew]
      intro x hx
      simp only [pendingNames, pending] at hx
      rw [pending_set_append s _ hlen, List.map_append, List.mem_append] at hx
      rcases hx with hx | hx
      · exact Nat.lt_succ_of_lt (hnames x hx)
      · simp only [List.map_cons, List.map_nil, List.mem_singleton] at hx
        rw [hx]
        simp only [strncpy, List.length_take, List.length_replicate]
        omega

theorem reachable_fullState : Reachable fullState :=
  ⟨1, 100, fullOps, run_enqueues _ _⟩

theorem fullState_queueCount : fullState.queueCount = MAX_PROCESSES :=
  (fill_spec MAX_PROCESSES (le_refl _)).2.1

theorem perm_cons_eraseIdx {α : Type} (l : List α) (i : Nat) (x : α) (h : l[i]? = some x) :
    List.Perm (x :: l.eraseIdx i) l := by
  induction l generalizing i with
  | nil => simp at h
  | cons a l ih =>
    cases i with
    | zero =>
      simp only [List.getElem?_cons_zero, Option.some.injEq] at h
      rw [h]
      exact List.Perm.refl _
    | succ i =>
      simp only [List.getElem?_cons_succ] at h
      simp only [List.eraseIdx_cons_succ]
      exact (List.Perm.swap a x _).trans ((ih i h).cons a)

theorem pending_getElem?_highest (s : State) (hlen : s.queueCount ≤ s.queue.length)
    (hpos : 0 < s.queueCount) :
    (pending s)[highestPriorityIndex s]? = some (dequeue s).1 := by
  have hhi := highestPriorityIndex_lt s hpos
  have hpl := pending_length s hlen
  rw [dequeue_fst s hpos, ← pending_getD s _ hhi, List.getD_eq_getElem?_getD,
    List.getElem?_eq_getElem (by omega)]
  rfl

theorem dequeue_of_empty (s : State) (h : s.queueCount = 0) : (dequeue s).2 = s := by
  unfold dequeue
  rw [if_neg (by omega)]

theorem dequeueN_spec (k : Nat) (s : State) (hinv : Inv s) (hk : k ≤ s.queueCount) :
    (dequeueN k s).1.length = k ∧
    (dequeueN k s).2.queueCount = s.queueCount - k ∧
    List.Perm ((dequeueN k s).1 ++ pending (dequeueN k s).2) (pending s) ∧
    (pending (dequeueN k s).2).Sublist (pending s) := by
  induction k generalizing s with
  | zero => exact ⟨rfl, rfl, List.Perm.refl _, List.Sublist.refl _⟩
  | succ k ih =>
    have hlen : s.queueCount ≤ s.queue.length := by rw [hinv.length]; exact hinv.count
    have hpos : 0 < s.queueCount := by omega
    have hq := dequeue_queueCount s
    obtain ⟨h1, h2, h3, h4⟩ := ih (dequeue s).2 (inv_dequeue s hinv) (by omega)
    have hp := dequeue_pending s hlen hpos
    simp only [dequeueN, List.length_cons, List.cons_append]
    refine ⟨by omega, by omega, ?_, ?_⟩
    · refine (h3.cons _).trans ?_
      rw [hp]
      exact perm_cons_eraseIdx _ _ _ (pending_getElem?_highest s hlen hpos)
    · refine h4.trans ?_
      rw [hp]
      exact List.eraseIdx_sublist _ _

theorem run_preserves (P : State → Prop) (A : Op → Prop)
    (henq : ∀ s sd name p, A (Op.enqueue sd name p) → Inv s → P s → P (enqueue s sd name p))
    (hdeq : ∀ s, Inv s → P s → P (dequeue s).2)
    (hsig : ∀ s, A Op.sigint → Inv s → P s → P (sigintHandler s))
    (ops : List Op) (s : State) (hA : ∀ op ∈ ops, A op) (hinv : Inv s) (hP : P s) :
    ∃ s', run s ops = Outcome.ok s' ∧ Inv s' ∧ P s' := by
  have hN : ∀ (k : Nat) (t : State), Inv t → P t → P (dequeueN k t).2 := by
    intro k
    induction k with
    | zero => exact fun t _ h => h
    | succ k ih => exact fun t hi hp => ih _ (inv_dequeue t hi) (hdeq t hi hp)
  induction ops generalizing s with
  | nil => exact ⟨s, rfl, hinv, hP⟩
  | cons op ops ih =>
    have hA' : ∀ op' ∈ ops, A op' := fun op' h => hA op' (List.mem_cons_of_mem _ h)
    have hop := hA op (List.mem_cons_self _ _)
    cases op with
    | enqueue sd name p =>
      simpa [run, Op.apply] using
        ih _ hA' (inv_enqueue s sd name p hinv) (henq s sd name p hop hinv hP)
    | dequeue =>
      simpa [run, Op.apply] using ih _ hA' (inv_dequeue s hinv) (hdeq s hinv hP)
    | sigint =>
      simpa [run, Op.apply] using ih _ hA' (inv_sigintHandler s hinv) (hsig s hop hinv hP)
    | tick env =>
      simp only [run, Op.apply, schedulerSignalHandler_of_inv env s hinv]
      by_cases hs : s.executionStarted = true
      · rw [if_pos hs]
        exact ih _ hA' (inv_dequeueN _ s hinv) (hN _ s hinv hP)
      · rw [if_neg hs]
        exact ih _ hA' hinv hP

theorem nodup_enqueue (s : State) (sd : SharedMemoryData) (name : List Char) (p : Int)
    (hname : name.length ≤ 255) (hinv : Inv s) (hnd : (pendingNames s).Nodup) :
    (pendingNames (enqueue s sd name p)).Nodup := by
  by_cases hroom : s.queueCount < MAX_PROCESSES
  · by_cases hmem : name ∈ pendingNames s
    · rw [enqueue_of_mem s sd name p hroom hmem]
      exact hnd
    · have hlen : s.queueCount < s.queue.length := by rw [hinv.length]; exact hroom
      rw [enqueue_of_new s sd name p hroom (by omega) hmem]
      simp only [pendingNames, pending]
      rw [pending_set_append s _ hlen, List.map_append]
      simp only [List.map_cons, List.map_nil, strncpy, List.take_of_length_le hname]
      rw [List.nodup_append]
      refine ⟨hnd, List.nodup_singleton _, ?_⟩
      intro x hx hx'
      rw [List.mem_singleton] at hx'
      rw [hx'] at hx
      exact hmem hx
  · rw [enqueue_of_full s sd name p hroom]
    exact hnd

theorem nodup_dequeue (s : State) (hinv : Inv s) (hnd : (pendingNames s).Nodup) :
    (pendingNames (dequeue s).2).Nodup := by
  by_cases hpos : 0 < s.queueCount
  · simp only [pendingNames]
    rw [dequeue_pending s (by rw [hinv.length]; exact hinv.count) hpos]
    exact hnd.sublist ((List.eraseIdx_sublist _ _).map _)
  · rw [dequeue_of_empty s (by omega)]
    exact hnd

theorem shift_mem (Q : Process → Prop) (hzero : Q Process.zero) (l : List Nat)
    (q : List Process) (hq : ∀ x ∈ q, Q x) :
    ∀ x ∈ l.foldl (fun q i => q.set i (q.getD (i + 1) Process.zero)) q, Q x := by
  induction l generalizing q with
  | nil => exact hq
  | cons i l ih =>
    simp only [List.foldl_cons]
    apply ih
    intro x hx
    rcases List.mem_or_eq_of_mem_set hx with h | h
    · exact hq x h
    · rw [h, List.getD_eq_getElem?_getD]
      cases hget : q[i + 1]? with
      | none => exact hzero
      | some y => exact hq y (List.getElem?_mem hget)

theorem zeroStart_enqueue (s : State) (sd : SharedMemoryData) (name : List Char) (p : Int)
    (h : ∀ x ∈ s.queue, x.startTime = ⟨0, 0⟩) :
    ∀ x ∈ (enqueue s sd name p).queue, x.startTime = ⟨0, 0⟩ := by
  unfold enqueue
  split
  · split
    · exact h
    · intro x hx
      rcases List.mem_or_eq_of_mem_set hx with hx | hx
      · exact h x hx
      · rw [hx]
        simp only [List.getD_eq_getElem?_getD]
        cases hget : s.queue[s.queueCount]? with
        | none => rfl
        | some y => exact h y (List.getElem?_mem hget)
  · exact h

theorem zeroStart_dequeue (s : State) (h : ∀ x ∈ s.queue, x.startTime = ⟨0, 0⟩) :
    ∀ x ∈ (dequeue s).2.queue, x.startTime = ⟨0, 0⟩ := by
  unfold dequeue
  split
  · exact shift_mem (fun x => x.startTime = ⟨0, 0⟩) rfl _ _ h
  · exact h

theorem completed_of_inv (s : State) (h : Inv s) : completed s = [] := by
  simp [completed, h.log]

/-! ## The properties of the specification -/

/-- C1. After any sequence of `enqueue` and `dequeue` calls made on the empty
queue, with `stamps` the call numbers of the admitting `enqueue` calls (they
grow along the queue: the queue is in arrival order), `dequeue` on a non-empty
queue returns the pending job at some position `i` such that: no pending job
has a smaller priority value; every other pending job of the same priority
was admitted by a later call; and the pending jobs afterwards are the former
ones with position `i` erased, order kept. -/
theorem dequeue_returns_earliest_smallest (ncpu tslice : Int) (calls : List QueueCall)
    (s : State) (stamps : List Nat) (hrun : afterCalls ncpu tslice calls = (s, stamps))
    (hne : 0 < s.queueCount) :
    (pending s).length = s.queueCount ∧
    List.Forall₂ (admittedBy calls) (pending s) stamps ∧
    stamps.Pairwise (fun a b => a < b) ∧
    ∃ i, i < s.queueCount ∧
      (pending s)[i]? = some (dequeue s).1 ∧
      (∀ job ∈ pending s, (dequeue s).1.priority ≤ job.priority) ∧
      (∀ j job, (pending s)[j]? = some job → j ≠ i →
        job.priority = (dequeue s).1.priority → stamps.getD i 0 < stamps.getD j 0) ∧
      pending (dequeue s).2 = (pending s).eraseIdx i ∧
      (dequeue s).2.queueCount = s.queueCount - 1 := by
  have hS := stampInv_afterCalls ncpu tslice calls
  rw [hrun] at hS
  obtain ⟨hinv, hadm, hinc, -⟩ := hS
  simp only at hinv hadm hinc
  have hlen : s.queueCount ≤ s.queue.length := by rw [hinv.length]; exact hinv.count
  have hpl := pending_length s hlen
  have hsl : stamps.length = s.queueCount := by rw [← hadm.length_eq, hpl]
  have hhi := highestPriorityIndex_lt s hne
  have hget : ∀ j, j < s.queueCount → (pending s)[j]? = some (s.queue.getD j Process.zero) := by
    intro j hj
    rw [← pending_getD s j hj, List.getD_eq_getElem?_getD,
      List.getElem?_eq_getElem (by omega)]
    rfl
  refine ⟨hpl, hadm, hinc, highestPriorityIndex s, hhi, ?_, ?_, ?_,
    dequeue_pending s hlen hne, dequeue_queueCount s⟩
  · rw [dequeue_fst s hne, hget _ hhi]
  · intro job hjob
    obtain ⟨j, hj⟩ := List.getElem?_of_mem hjob
    have hjlt : j < s.queueCount := by
      by_contra hcon
      rw [List.getElem?_eq_none (by omega)] at hj
      cases hj
    rw [hget j hjlt] at hj
    cases hj
    rw [dequeue_fst s hne]
    exact highestPriorityIndex_min s j hjlt
  · intro j job hj hne' hprio
    have hjlt : j < s.queueCount := by
      by_contra hcon
      rw [List.getElem?_eq_none (by omega)] at hj
      cases hj
    rw [hget j hjlt] at hj
    cases hj
    rw [dequeue_fst s hne] at hprio
    have hle : highestPriorityIndex s < j := by
      rcases Nat.lt_or_ge j (highestPriorityIndex s) with h | h
      · have := highestPriorityIndex_first s j h
        omega
      · omega
    rw [List.getD_eq_getElem?_getD, List.getD_eq_getElem?_getD,
      List.getElem?_eq_getElem (by omega), List.getElem?_eq_getElem (by omega)]
    exact (List.pairwise_iff_getElem.1 hinc) _ _ (by omega) (by omega) hle

/-- Witness for C1: after `sampleCalls` the queue holds `A` (5), `C` (1),
`D` (1) with stamps 0, 2, 4, and `dequeue` returns `C`. -/
theorem dequeue_returns_earliest_smallest_witness :
    0 < (afterCalls 2 100 sampleCalls).1.queueCount ∧
    pendingNames (afterCalls 2 100 sampleCalls).1 = [['A'], ['C'], ['D']] ∧
    (afterCalls 2 100 sampleCalls).2 = [0, 2, 4] ∧
    (dequeue (afterCalls 2 100 sampleCalls).1).1.executableName = ['C'] ∧
    pendingNames (dequeue (afterCalls 2 100 sampleCalls).1).2 = [['A'], ['D']] ∧
    ∃ i, i < (afterCalls 2 100 sampleCalls).1.queueCount ∧
      (pending (afterCalls 2 100 sampleCalls).1)[i]?
        = some (dequeue (afterCalls 2 100 sampleCalls).1).1 ∧
      pending (dequeue (afterCalls 2 100 sampleCalls).1).2
        = (pending (afterCalls 2 100 sampleCalls).1).eraseIdx i :=
  ⟨by decide, by decide, by decide, by decide, by decide,
    (dequeue_returns_earliest_smallest 2 100 sampleCalls _ _ rfl (by decide)).2.2.2.imp
      (fun _ h => ⟨h.1, h.2.1, h.2.2.2.2.1⟩)⟩

/-- C2. Submitting a name that a pending job already carries changes nothing
but standard output: the queue array, the count, and hence the pending jobs
(each with its original priority) are the same, whatever priority is given. -/
theorem enqueue_duplicate_rejected (s : State) (sharedData : SharedMemoryData)
    (name : List Char) (p : Int) (h : name ∈ pendingNames s) :
    (∃ msg, enqueue s sharedData name p = { s with out := s.out ++ [msg] }) ∧
    (enqueue s sharedData name p).queue = s.queue ∧
    (enqueue s sharedData name p).queueCount = s.queueCount ∧
    pending (enqueue s sharedData name p) = pending s := by
  by_cases hroom : s.queueCount < MAX_PROCESSES
  · rw [enqueue_of_mem s sharedData name p hroom h]
    exact ⟨⟨_, rfl⟩, rfl, rfl, rfl⟩
  · rw [enqueue_of_full s sharedData name p hroom]
    exact ⟨⟨_, rfl⟩, rfl, rfl, rfl⟩

/-- Witness for C2: `X` submitted with priority 3 twice leaves exactly one `X`,
with priority 3. -/
theorem enqueue_duplicate_rejected_witness :
    ['X'] ∈ pendingNames (enqueue (initialState 1 100) sampleShared ['X'] 3) ∧
    pending (enqueue (enqueue (initialState 1 100) sampleShared ['X'] 3) sampleShared ['X'] 3)
      = pending (enqueue (initialState 1 100) sampleShared ['X'] 3) ∧
    (pending (enqueue (enqueue (initialState 1 100) sampleShared ['X'] 3)
        sampleShared ['X'] 3)).map (fun job => (job.executableName, job.priority))
      = [(['X'], 3)] :=
  ⟨by decide,
   (enqueue_duplicate_rejected (enqueue (initialState 1 100) sampleShared ['X'] 3) sampleShared
      ['X'] 3 (by decide)).2.2.2,
   by decide⟩

/-- C3 (the code departs from the claim).  With job `A` pending and the
scheduler armed, a tick whose `fork` would succeed takes `A` out of the queue
and appends nothing to the completion log: the only line printed is the one
of `dequeue`, which shows the pid `-1` that `enqueue` stored and that the
handler takes for the empty-queue sentinel.  The same holds throughout: every
sequence of events leads to a state whose completion log is empty. -/
theorem armed_tick_logs_nothing :
    pendingNames armedA = [['A']] ∧
    (∃ s', schedulerSignalHandler sampleEnv armedA = Outcome.ok s' ∧
      pending s' = [] ∧ s'.completedQueueCount = 0 ∧ completed s' = [] ∧
      s'.out = armedA.out ++ [Msg.dequeued ['A'] (-1)]) ∧
    (∀ (ncpu tslice : Int) (ops : List Op),
      ∃ s, run (initialState ncpu tslice) ops = Outcome.ok s ∧
        s.completedQueueCount = 0 ∧ completed s = []) := by
  refine ⟨by decide, ⟨_, rfl, by decide, by decide, by decide, by decide⟩, ?_⟩
  intro ncpu tslice ops
  obtain ⟨s, hrun, hinv⟩ := run_of_inv ops _ (inv_initialState ncpu tslice)
  exact ⟨s, hrun, hinv.log, completed_of_inv s hinv⟩

/-- C4. In every reachable state in which the scheduler is armed, with `n`
pending jobs and `ncpu ≥ 0`, one tick ends in the state that
`k = min (ncpu, n)` successive `dequeue` calls produce: the `k` jobs those
calls return, in that order, are the ones taken out; `k` is never more than
`ncpu`; the count drops by `k`; the jobs taken together with the jobs left
are exactly the jobs that were pending, and the jobs left keep their order. -/
theorem tick_takes_min_ncpu (s : State) (env : Nat → SlotEnv) (hreach : Reachable s)
    (harmed : s.executionStarted = true) (hncpu : 0 ≤ s.ncpu) :
    schedulerSignalHandler env s
      = Outcome.ok (dequeueN (min s.ncpu.toNat s.queueCount) s).2 ∧
    ((min s.ncpu.toNat s.queueCount : Nat) : Int) = min s.ncpu (s.queueCount : Int) ∧
    ((min s.ncpu.toNat s.queueCount : Nat) : Int) ≤ s.ncpu ∧
    (dequeueN (min s.ncpu.toNat s.queueCount) s).1.length = min s.ncpu.toNat s.queueCount ∧
    (dequeueN (min s.ncpu.toNat s.queueCount) s).2.queueCount
      = s.queueCount - min s.ncpu.toNat s.queueCount ∧
    List.Perm
      ((dequeueN (min s.ncpu.toNat s.queueCount) s).1
        ++ pending (dequeueN (min s.ncpu.toNat s.queueCount) s).2)
      (pending s) ∧
    (pending (dequeueN (min s.ncpu.toNat s.queueCount) s).2).Sublist (pending s) := by
  have hinv := inv_of_reachable s hreach
  obtain ⟨h1, h2, h3, h4⟩ :=
    dequeueN_spec (min s.ncpu.toNat s.queueCount) s hinv (Nat.min_le_right _ _)
  refine ⟨?_, ?_, ?_, h1, h2, h3, h4⟩
  · rw [schedulerSignalHandler_of_inv env s hinv, if_pos harmed]
  · omega
  · omega

/-- Witness for C4: the scenario of the specification.  With `ncpu = 2` and
`A` (5), `B` (1), `C` (5) pending, the tick takes `B` then `A` and leaves
exactly `C` pending. -/
theorem tick_takes_min_ncpu_witness :
    Reachable stateABC ∧ stateABC.executionStarted = true ∧ 0 ≤ stateABC.ncpu ∧
    pendingNames stateABC = [['A'], ['B'], ['C']] ∧
    min stateABC.ncpu.toNat stateABC.queueCount = 2 ∧
    schedulerSignalHandler sampleEnv stateABC = Outcome.ok (dequeueN 2 stateABC).2 ∧
    (dequeueN 2 stateABC).1.map (fun job => job.executableName) = [['B'], ['A']] ∧
    pendingNames (dequeueN 2 stateABC).2 = [['C']] :=
  ⟨⟨2, 100, scenarioABC, rfl⟩, rfl, by decide, by decide, by decide,
   (tick_takes_min_ncpu stateABC sampleEnv ⟨2, 100, scenarioABC, rfl⟩ rfl (by decide)).1,
   by decide, by decide⟩

/-- C5. From the initial state, after any sequence of `enqueue` calls and
timer ticks (the start trigger has not fired) the scheduler is still not
armed, and a tick returns the state it was given: the pending queue and the
completion log are unchanged, whatever `ncpu` is and however many jobs are
pending.  In particular a tick anywhere in such a sequence has no effect. -/
theorem ticks_before_start_do_nothing (ncpu tslice : Int) (ops : List Op)
    (hops : ∀ op ∈ ops, op.isEnqueueOrTick = true) :
    ∃ s, run (initialState ncpu tslice) ops = Outcome.ok s ∧
      s.executionStarted = false ∧
      (∀ env, schedulerSignalHandler env s = Outcome.ok s) ∧
      (∀ env, run (initialState ncpu tslice) (ops ++ [Op.tick env]) = Outcome.ok s) := by
  obtain ⟨s, hrun, -, hP⟩ :=
    run_preserves (fun s => s.executionStarted = false) (fun op => op.isEnqueueOrTick = true)
      (fun s sd name p _ _ hP => by
        rw [← hP]
        unfold enqueue
        split
        · split <;> rfl
        · rfl)
      (fun s _ hP => by
        rw [← hP]
        unfold dequeue
        split <;> rfl)
      (fun s hA _ _ => by simp [Op.isEnqueueOrTick] at hA)
      ops (initialState ncpu tslice) hops (inv_initialState ncpu tslice) rfl
  have htick : ∀ env, schedulerSignalHandler env s = Outcome.ok s := by
    intro env
    unfold schedulerSignalHandler
    simp [hP]
  refine ⟨s, hrun, hP, htick, ?_⟩
  intro env
  rw [run_append_ok ops _ _ s hrun]
  simp only [run, Op.apply, htick env]

/-- Witness for C5: three submissions and two ticks, no start trigger, with
`ncpu = 2`; all three jobs are still pending and nothing is logged. -/
theorem ticks_before_start_do_nothing_witness :
    (∀ op ∈ unarmedOps, op.isEnqueueOrTick = true) ∧
    (∃ s, run (initialState 2 100) unarmedOps = Outcome.ok s ∧
      s.executionStarted = false ∧
      (∀ env, schedulerSignalHandler env s = Outcome.ok s) ∧
      (∀ env, run (initialState 2 100) (unarmedOps ++ [Op.tick env]) = Outcome.ok s)) ∧
    (∃ s, run (initialState 2 100) unarmedOps = Outcome.ok s ∧
      pendingNames s = [['A'], ['B'], ['C']] ∧ s.completedQueueCount = 0) :=
  ⟨by simp [unarmedOps, Op.isEnqueueOrTick],
   ticks_before_start_do_nothing 2 100 unarmedOps (by simp [unarmedOps, Op.isEnqueueOrTick]),
   ⟨_, rfl, by decide, by decide⟩⟩

theorem charged_eq_max (d tslice : Int) : (if d < tslice then tslice else d) = max tslice d := by
  split
  · rw [max_eq_left]; omega
  · rw [max_eq_right]; omega

theorem wrapLong_of_fits (x : Int) (hlo : -9223372036854775808 ≤ x)
    (hhi : x ≤ 9223372036854775807) : wrapLong x = x := by
  unfold wrapLong
  omega

theorem toMs_of_clockReading (t : Timeval) (h : ClockReading t) :
    toMs t = t.tv_sec * 1000 + Int.tdiv t.tv_usec 1000 ∧
    0 ≤ toMs t ∧ toMs t ≤ 9223372036854774999 := by
  obtain ⟨h1, h2, h3, h4⟩ := h
  have hdiv : Int.tdiv t.tv_usec 1000 = t.tv_usec / 1000 :=
    Int.tdiv_eq_ediv h3 (by decide)
  have hval : toMs t = t.tv_sec * 1000 + Int.tdiv t.tv_usec 1000 := by
    unfold toMs
    rw [wrapLong_of_fits (t.tv_sec * 1000) (by omega) (by omega), hdiv,
      wrapLong_of_fits _ (by omega) (by omega)]
  rw [hval, hdiv]
  omega

theorem elapsed_of_clockReading (a b : Timeval) (ha : ClockReading a) (hb : ClockReading b) :
    wrapLong (toMs b - toMs a) =
      b.tv_sec * 1000 + Int.tdiv b.tv_usec 1000
        - (a.tv_sec * 1000 + Int.tdiv a.tv_usec 1000) := by
  obtain ⟨ea, ha0, ha1⟩ := toMs_of_clockReading a ha
  obtain ⟨eb, hb0, hb1⟩ := toMs_of_clockReading b hb
  rw [wrapLong_of_fits _ (by omega) (by omega), ea, eb]

/-- C6. For every job record and every `tslice`, with `d = elapsedMs record`:
(1) the completion branch of `schedulerSignalHandler` stores the record with
the end time just read and prints for it the completion time
`max (tslice, d)`; (2) `printProcessCompletionDetails` prints for every
logged record the completion time `max (tslice, d)`; (3) `d` is the record's
end time minus its start time in milliseconds, each taken as
`tv_sec * 1000 + tv_usec / 1000`: computed in `long` arithmetic for every
record, and equal to the difference of those two numbers whenever both times
are readings the clock can return (`ClockReading`); (4) the value charged is
`tslice` when `d < tslice`, is `d` when `d ≥ tslice`, and is never less than
`tslice`. -/
theorem charged_completion_time (e : SlotEnv) (process : Process) (s : State)
    (hroom : s.completedQueueCount < MAX_PROCESSES) :
    parentBranch e process s = Outcome.ok
      { s with
        completedQueue :=
          s.completedQueue.set s.completedQueueCount { process with endTime := e.endTime }
        completedQueueCount := s.completedQueueCount + 1
        out := s.out ++
          [Msg.schedulerRunning process.executableName process.pid,
           Msg.sentSigusr1 process.pid,
           Msg.completed process.executableName process.pid
             (max s.tslice (elapsedMs { process with endTime := e.endTime }))
             process.waitTime] } ∧
    (∀ t : State, (printProcessCompletionDetails t).out =
      t.out ++ Msg.reportHeader ::
        (List.range t.completedQueueCount).map
          (fun i => reportLine t.tslice (t.completedQueue.getD i Process.zero))) ∧
    (∀ record : Process,
      elapsedMs record =
        wrapLong
          (wrapLong (wrapLong (record.endTime.tv_sec * 1000)
              + Int.tdiv record.endTime.tv_usec 1000)
            - wrapLong (wrapLong (record.startTime.tv_sec * 1000)
              + Int.tdiv record.startTime.tv_usec 1000)) ∧
      (ClockReading record.startTime → ClockReading record.endTime →
        elapsedMs record =
          record.endTime.tv_sec * 1000 + Int.tdiv record.endTime.tv_usec 1000
            - (record.startTime.tv_sec * 1000 + Int.tdiv record.startTime.tv_usec 1000))) ∧
    (∀ record : Process, ∀ tslice : Int,
      (elapsedMs record < tslice → max tslice (elapsedMs record) = tslice) ∧
      (tslice ≤ elapsedMs record → max tslice (elapsedMs record) = elapsedMs record) ∧
      tslice ≤ max tslice (elapsedMs record)) := by
  refine ⟨?_, ?_, ?_, ?_⟩
  · unfold parentBranch
    simp only [if_pos hroom, charged_eq_max, elapsedMs]
  · intro t
    simp only [printProcessCompletionDetails, reportLine, charged_eq_max, elapsedMs]
  · intro record
    refine ⟨rfl, fun hs he => ?_⟩
    unfold elapsedMs
    exact elapsed_of_clockReading record.startTime record.endTime hs he
  · intro record tslice
    exact ⟨fun h => max_eq_left (by omega), fun h => max_eq_right h, le_max_left _ _⟩

/-- Witness for C6, with `tslice = 50` and a job that started at 1995 ms: gone
at 2005 ms (10 ms later, in another second) it is charged 50; gone at 3005 ms
(1010 ms later) it is charged 1010, at completion and in the final report.
The last line shows the `long` arithmetic outside the range of the clock: an
end time of `farFuture` gives a negative `elapsedMs`. -/
theorem charged_completion_time_witness :
    (initialState 1 50).completedQueueCount < MAX_PROCESSES ∧
    ClockReading sampleRecord.startTime ∧ ClockReading quickEnv.endTime ∧
    ClockReading slowEnv.endTime ∧
    elapsedMs { sampleRecord with endTime := quickEnv.endTime }
      = 2 * 1000 + Int.tdiv 5000 1000 - (1 * 1000 + Int.tdiv 995000 1000) ∧
    elapsedMs { sampleRecord with endTime := quickEnv.endTime } = 10 ∧
    elapsedMs { sampleRecord with endTime := slowEnv.endTime } = 1010 ∧
    (∃ s', parentBranch quickEnv sampleRecord (initialState 1 50) = Outcome.ok s' ∧
      s'.out = [Msg.schedulerRunning ['J'] 77, Msg.sentSigusr1 77,
                Msg.completed ['J'] 77 50 250] ∧
      (printProcessCompletionDetails s').out = s'.out ++
        [Msg.reportHeader, Msg.reportEntry ['J'] 77 50 250]) ∧
    (∃ s', parentBranch slowEnv sampleRecord (initialState 1 50) = Outcome.ok s' ∧
      s'.out = [Msg.schedulerRunning ['J'] 77, Msg.sentSigusr1 77,
                Msg.completed ['J'] 77 1010 250] ∧
      (printProcessCompletionDetails s').out = s'.out ++
        [Msg.reportHeader, Msg.reportEntry ['J'] 77 1010 250]) ∧
    elapsedMs { sampleRecord with startTime := ⟨0, 0⟩, endTime := farFuture }
      = -9223372036854775616 :=
  ⟨by decide, by unfold ClockReading; decide, by unfold ClockReading; decide,
   by unfold ClockReading; decide,
   ((charged_completion_time quickEnv sampleRecord (initialState 1 50) (by decide)).2.2.1
      { sampleRecord with endTime := quickEnv.endTime }).2
      (by unfold ClockReading; decide) (by unfold ClockReading; decide),
   by decide, by decide,
   ⟨_, (charged_completion_time quickEnv sampleRecord (initialState 1 50) (by decide)).1,
    by decide, by decide⟩,
   ⟨_, (charged_completion_time slowEnv sampleRecord (initialState 1 50) (by decide)).1,
    by decide, by decide⟩,
   by decide⟩

/-- Outside the range of `ClockReading` the `long` arithmetic overflows: for a
record that starts at time zero and ends at `farFuture`, whose seconds times
1000 exceed `2 ^ 63 - 1`, the product wraps to a negative `long`, `elapsedMs`
is negative and the completion branch prints `tslice = 50`, while the
difference of the two times as numbers is 9223372036854776000. -/
theorem charged_when_long_overflows :
    ∃ s', parentBranch { quickEnv with endTime := farFuture }
        { sampleRecord with startTime := ⟨0, 0⟩ } (initialState 1 50) = Outcome.ok s' ∧
      s'.out.getLast? = some (Msg.completed ['J'] 77 50 250) ∧
      elapsedMs { sampleRecord with startTime := ⟨0, 0⟩, endTime := farFuture }
        = -9223372036854775616 ∧
      farFuture.tv_sec * 1000 + Int.tdiv farFuture.tv_usec 1000 - 0 = 9223372036854776000 :=
  ⟨_, rfl, by decide, by decide, by decide⟩

/-- C7 (the code departs from the claim).  `enqueue` has no clock reading and
writes no time: the record it adds for `A` has the zero start time of the
untouched slot, and an armed tick at clock 5000 ms takes `A` out without
logging any wait time.  Throughout, every sequence of events leads to a state
in which every slot of the queue has start time zero, so the difference that
line 117 would take is the clock reading itself, not a time since arrival. -/
theorem enqueue_records_no_arrival_time :
    ((enqueue (initialState 1 50) sampleShared ['A'] 1).queue.getD 0 Process.zero).startTime
      = ⟨0, 0⟩ ∧
    (∃ s', schedulerSignalHandler sampleEnv armedA = Outcome.ok s' ∧
      pending s' = [] ∧ completed s' = []) ∧
    (∀ (ncpu tslice : Int) (ops : List Op),
      ∃ s, run (initialState ncpu tslice) ops = Outcome.ok s ∧
        (∀ job ∈ s.queue, job.startTime = ⟨0, 0⟩) ∧
        (∀ job ∈ pending s, ∀ e : SlotEnv,
          toMs e.currentTime - toMs job.startTime = toMs e.currentTime)) := by
  refine ⟨by decide, ⟨_, rfl, by decide, by decide⟩, ?_⟩
  intro ncpu tslice ops
  obtain ⟨s, hrun, -, hz⟩ :=
    run_preserves (fun s => ∀ x ∈ s.queue, x.startTime = ⟨0, 0⟩) (fun _ => True)
      (fun s sd name p _ _ hP => zeroStart_enqueue s sd name p hP)
      (fun s _ hP => zeroStart_dequeue s hP)
      (fun _ _ _ hP => hP)
      ops (initialState ncpu tslice) (fun _ _ => trivial) (inv_initialState ncpu tslice)
      (by
        intro x hx
        simp only [initialState] at hx
        rw [List.eq_of_mem_replicate hx]
        rfl)
  refine ⟨s, hrun, hz, ?_⟩
  intro job hjob e
  rw [hz job (List.mem_of_mem_take hjob)]
  have h0 : toMs ⟨0, 0⟩ = 0 := by decide
  rw [h0, sub_zero]

/-- C8. When the queue already holds `MAX_PROCESSES` (256) jobs, `enqueue` of
any name and priority only prints the queue-full message: no slot of the
array is overwritten and the count stays 256.  Consequently the count is at
most 256 in every state reachable by `enqueue`, `dequeue`, the start trigger
and ticks. -/
theorem full_queue_rejects :
    (∀ (s : State) (sharedData : SharedMemoryData) (name : List Char) (p : Int),
      s.queueCount = MAX_PROCESSES →
        enqueue s sharedData name p = { s with out := s.out ++ [Msg.queueFull] } ∧
        (enqueue s sharedData name p).queue = s.queue ∧
        (enqueue s sharedData name p).queueCount = MAX_PROCESSES) ∧
    (∀ s : State, Reachable s → s.queueCount ≤ MAX_PROCESSES) := by
  refine ⟨?_, fun s h => (inv_of_reachable s h).count⟩
  intro s sd name p hfull
  have hroom : ¬ s.queueCount < MAX_PROCESSES := by omega
  rw [enqueue_of_full s sd name p hroom]
  exact ⟨rfl, rfl, hfull⟩

/-- Witness for C8: `fullState`, reached by 256 submissions of distinct names,
holds 256 jobs; a further submission leaves its queue as it is. -/
theorem full_queue_rejects_witness :
    Reachable fullState ∧ fullState.queueCount = MAX_PROCESSES ∧
    (enqueue fullState sampleShared ['Z'] 0).queue = fullState.queue ∧
    (enqueue fullState sampleShared ['Z'] 0).queueCount = MAX_PROCESSES ∧
    (enqueue fullState sampleShared ['Z'] 0).queueCount ≤ MAX_PROCESSES :=
  ⟨reachable_fullState, fullState_queueCount,
   (full_queue_rejects.1 fullState sampleShared ['Z'] 0 fullState_queueCount).2.1,
   (full_queue_rejects.1 fullState sampleShared ['Z'] 0 fullState_queueCount).2.2,
   full_queue_rejects.2 _ (reachable_enqueue fullState sampleShared ['Z'] 0 reachable_fullState)⟩

/-- C9. On a queue with a free slot, submitting a name of at most 255
characters that no pending job carries appends exactly one record at the end,
with that name and priority, pid `-1`, not running, wait time 0; the jobs
pending before are unchanged and keep their order. -/
theorem enqueue_appends_new (s : State) (sharedData : SharedMemoryData)
    (name : List Char) (p : Int) (hslots : s.queue.length = MAX_PROCESSES)
    (hroom : s.queueCount < MAX_PROCESSES) (hname : name.length ≤ 255)
    (hnew : name ∉ pendingNames s) :
    ∃ job, pending (enqueue s sharedData name p) = pending s ++ [job] ∧
      job.executableName = name ∧ job.priority = p ∧ job.pid = -1 ∧
      job.isRunning = false ∧ job.waitTime = 0 ∧
      (enqueue s sharedData name p).queueCount = s.queueCount + 1 := by
  have hlen : s.queueCount < s.queue.length := by rw [hslots]; exact hroom
  rw [enqueue_of_new s sharedData name p hroom (by omega) hnew]
  refine ⟨_, pending_set_append s _ hlen, ?_, rfl, rfl, rfl, rfl, rfl⟩
  simp only [strncpy]
  exact List.take_of_length_le hname

/-- Witness for C9: `D` with priority 7 submitted after `A`, `B`, `C`. -/
theorem enqueue_appends_new_witness :
    stateABC.queue.length = MAX_PROCESSES ∧ stateABC.queueCount < MAX_PROCESSES ∧
    ['D'].length ≤ 255 ∧ ['D'] ∉ pendingNames stateABC ∧
    ∃ job, pending (enqueue stateABC sampleShared ['D'] 7) = pending stateABC ++ [job] ∧
      job.executableName = ['D'] ∧ job.priority = 7 ∧ job.pid = -1 ∧
      job.isRunning = false ∧ job.waitTime = 0 ∧
      (enqueue stateABC sampleShared ['D'] 7).queueCount = stateABC.queueCount + 1 :=
  ⟨by decide, by decide, by decide, by decide,
   enqueue_appends_new stateABC sampleShared ['D'] 7 (by decide) (by decide) (by decide)
     (by decide)⟩

/-- Pending names are unique as long as every submitted name fits the name
field: in every state reached from the initial state by `enqueue` calls whose
names have at most 255 characters, `dequeue` calls, the start trigger and
ticks, no two pending jobs have the same name; and every such sequence of
events does lead to a state. -/
theorem pending_names_unique (ncpu tslice : Int) (ops : List Op)
    (hnames : ∀ op ∈ ops, op.nameLength ≤ 255) :
    ∃ s, run (initialState ncpu tslice) ops = Outcome.ok s ∧ (pendingNames s).Nodup := by
  obtain ⟨s, hrun, -, hnd⟩ :=
    run_preserves (fun s => (pendingNames s).Nodup) (fun op => op.nameLength ≤ 255)
      (fun s sd name p hA hinv hP => nodup_enqueue s sd name p hA hinv hP)
      (fun s hinv hP => nodup_dequeue s hinv hP)
      (fun _ _ _ hP => hP)
      ops (initialState ncpu tslice) hnames (inv_initialState ncpu tslice)
      (by simp [pendingNames, pending, initialState])
  exact ⟨s, hrun, hnd⟩

/-- An instance of `pending_names_unique`: `A`, `B`, `C` submitted, the
scheduler armed, then `A` submitted again and one tick. -/
theorem pending_names_unique_witness :
    (∀ op ∈ scenarioABC ++ [Op.enqueue sampleShared ['A'] 9, Op.tick sampleEnv],
      op.nameLength ≤ 255) ∧
    ∃ s, run (initialState 2 100)
        (scenarioABC ++ [Op.enqueue sampleShared ['A'] 9, Op.tick sampleEnv]) = Outcome.ok s ∧
      (pendingNames s).Nodup :=
  ⟨by simp [scenarioABC, Op.nameLength],
   pending_names_unique 2 100 _ (by simp [scenarioABC, Op.nameLength])⟩

/-- C10 (the code departs from the claim).  A name of 256 characters
submitted twice is admitted twice: `strncpy` stores its first 255 characters
(line 61) while the duplicate scan compares the stored names with the whole
argument (line 55), so the scan never finds it.  The state `longTwice`,
reached from the initial state by these two `enqueue` calls, has two pending
jobs with the same name. -/
theorem long_name_admitted_twice :
    run (initialState 1 100)
      [Op.enqueue sampleShared longName 1, Op.enqueue sampleShared longName 1]
      = Outcome.ok longTwice ∧
    pendingNames longTwice = [List.replicate 255 'a', List.replicate 255 'a'] ∧
    ¬ (pendingNames longTwice).Nodup := by
  refine ⟨rfl, by decide, by decide⟩

/-- C11 (the code departs from the claim).  The channel is one shared record
that `enqueue_for_scheduler` writes in place.  After `A` (priority 5) and then
`B` (priority 1) are submitted, with nothing read in between, the channel
holds `B` alone although the shell has reported both submissions.  In
general, after any two successful submissions the record is the one before
them with the name (cut to 255 characters) and priority of the second: it is
what the second submission alone would have left, and the channel never
holds more than one request. -/
theorem second_submission_overwrites_first :
    (∃ w₁ w₂, enqueue_for_scheduler true true freshSubmitter ['A'] 5 = some w₁ ∧
      enqueue_for_scheduler true true w₁ ['B'] 1 = some w₂ ∧
      heldRequests w₁.shared = [(['A'], 5)] ∧
      heldRequests w₂.shared = [(['B'], 1)] ∧
      w₂.out = [ShellMsg.commandSubmitted ['A'] 5, ShellMsg.commandSubmitted ['B'] 1]) ∧
    (∀ (w : Submitter) (a b : List Char) (p₁ p₂ : Int),
      ∃ w₁ w₂, enqueue_for_scheduler true true w a p₁ = some w₁ ∧
        enqueue_for_scheduler true true w₁ b p₂ = some w₂ ∧
        w₂.shared = { w.shared with executableName := strncpy b 255, priority := p₂ } ∧
        (∃ w', enqueue_for_scheduler true true w b p₂ = some w' ∧ w₂.shared = w'.shared) ∧
        (heldRequests w₂.shared).length ≤ 1) := by
  refine ⟨⟨_, _, rfl, rfl, by decide, by decide, by decide⟩, ?_⟩
  intro w a b p₁ p₂
  refine ⟨_, _, rfl, rfl, rfl, ⟨_, rfl, rfl⟩, ?_⟩
  unfold heldRequests
  split <;> simp

/-- C12 (the code departs from the claim).  The scheduler process never writes
`startTime`: whatever the clock readings and the result of `fork`, every
record in the completion log after a slot of the tick is either a record that
was there before or carries the start time that `dequeue` returned from the
queue (line 124 timestamps the copy of the forked child instead).  For job
`A` taken past the sentinel check, launched at clock 5000 ms and gone at
5010 ms with `tslice = 50`, the logged record has start time zero and the
completion time printed is 5010, not 50.  In the program as it runs, the tick
on `armedA` drops `A` and the final report lists no job. -/
theorem parent_never_timestamps_start :
    (∀ (e : SlotEnv) (s s' : State), dispatchSlot e s = Outcome.ok s' →
      ∀ record ∈ s'.completedQueue,
        record ∈ s.completedQueue ∨ record.startTime = (dequeue s).1.startTime) ∧
    (pendingNames launchableA = [['A']] ∧
      ∃ s', dispatchSlot (sampleEnv 0) launchableA = Outcome.ok s' ∧
        (completed s').map (fun r => (r.executableName, r.startTime, r.endTime))
          = [(['A'], ⟨0, 0⟩, ⟨5, 10000⟩)] ∧
        s'.out.getLast? = some (Msg.completed ['A'] 77 5010 5000) ∧
        (printProcessCompletionDetails s').out.getLast?
          = some (Msg.reportEntry ['A'] 77 5010 5000)) ∧
    (∃ s', schedulerSignalHandler sampleEnv armedA = Outcome.ok s' ∧
      (printProcessCompletionDetails s').out = s'.out ++ [Msg.reportHeader]) := by
  refine ⟨?_, ⟨by decide, _, rfl, by decide, by decide, by decide⟩,
    ⟨_, rfl, by decide⟩⟩
  intro e s s' h record hrec
  unfold dispatchSlot at h
  split at h
  · simp only at h
    split at h
    · cases h
      left
      have hq : (dequeue s).2.completedQueue = s.completedQueue := by
        unfold dequeue
        split <;> rfl
      rw [hq] at hrec
      exact hrec
    · split at h
      · cases h
      · unfold parentBranch at h
        simp only at h
        split at h
        · cases h
          have hq : (dequeue s).2.completedQueue = s.completedQueue := by
            unfold dequeue
            split <;> rfl
          simp only [hq] at hrec
          rcases List.mem_or_eq_of_mem_set hrec with hm | hm
          · exact Or.inl hm
          · right
            rw [hm]
        · cases h
  · cases h
    exact Or.inl hrec

end SimpleScheduler
